import Mathlib

/-!
Verification of the `Table` LGDO class from `src/pygama/lgdo/table.py`.

A `Table` is a struct of named columns (arrays, nested tables, ragged
arrays) of equal length, with a `size` row count and a read/write cursor
`loc`.  The Python class inherits from `Struct` (a `dict` subclass) and
stores columns of type `Scalar`, `Array`, `VectorOfVectors` or nested
`Table`; those sibling modules are not part of the excerpt and are
modelled from the spec where needed.  Python machine behaviour (the
`None` value for `size`, `TypeError` / `ValueError` / `KeyError` /
`AttributeError` exceptions, insertion-ordered `dict`s) is embedded
explicitly: `size` is an `Option Nat`, fallible operations return
`Except PyError`, and field dictionaries are insertion-ordered
association lists with unique keys maintained by `insert`.
-/

set_option maxHeartbeats 1000000
set_option linter.unusedVariables false

/-- Python exceptions that the table code can raise, tagged with a payload
(the offending column name or a message). -/
inductive PyError where
| typeError : String → PyError
| valueError : String → PyError
| keyError : String → PyError
| attributeError : String → PyError
deriving DecidableEq, Repr

mutual
/-- The LGDO column values stored in a table.  `table` carries the
`size` attribute (Python `None` or an integer), the `loc` cursor and the
ordered field dictionary.  Modelled from the spec: `Scalar`, `Array` and
`VectorOfVectors` live in sibling modules absent from the excerpt; a
`Scalar` wraps one value and has no `__len__`, an `Array` wraps a flat
numeric buffer `nda`, a `VectorOfVectors` is a ragged array with a
length but no single `nda` buffer. -/
inductive LGDO where
| scalar : Int → LGDO
| array : List Int → LGDO
| vov : List (List Int) → LGDO
| table : Option Nat → Nat → Fields → LGDO

/-- Insertion-ordered field dictionary of a `Struct`/`Table`.  Modelled
from the spec: `Struct` (absent from the excerpt) is a Python `dict`
subclass, so fields are ordered by insertion and keys are unique. -/
inductive Fields where
| nil : Fields
| cons : String → LGDO → Fields → Fields
end

deriving instance DecidableEq for Except
deriving instance DecidableEq for LGDO
deriving instance DecidableEq for Fields

namespace Fields

/-- The list of (name, column) pairs, in insertion order. -/
def toList : Fields → List (String × LGDO)
| .nil => []
| .cons k v rest => (k, v) :: rest.toList

/-- The key list of the dictionary (Python `dict.keys()`). -/
def keys : Fields → List String
| .nil => []
| .cons k _ rest => k :: rest.keys

/-- Python `dict` subscript lookup: the value at a key, if present. -/
def lookup (fs : Fields) (k : String) : Option LGDO :=
  match fs with
  | .nil => none
  | .cons k' v rest => if k' = k then some v else rest.lookup k

/-- Modelled from the spec: `Struct.add_field` (absent from the excerpt)
performs `self[name] = obj` on the underlying `dict` — an existing key
keeps its position and gets the new value, a new key is appended. -/
def insert (fs : Fields) (k : String) (v : LGDO) : Fields :=
  match fs with
  | .nil => .cons k v .nil
  | .cons k' v' rest => if k' = k then .cons k' v rest else .cons k' v' (rest.insert k v)

/-- Python `len(dict)`: number of fields. -/
def size : Fields → Nat
| .nil => 0
| .cons _ _ rest => rest.size + 1

end Fields

namespace LGDO

/-- Python `hasattr(obj, "__len__")`: every LGDO except `Scalar` defines
`__len__`.  Modelled from the spec for the sibling modules. -/
def hasLen : LGDO → Bool
| .scalar _ => false
| _ => true

/-- Python `len(obj)`.  A `Scalar` has no `__len__` (`TypeError`); a
`Table` returns its `size` attribute, and when that attribute is Python
`None` the `len` builtin raises `TypeError` because `__len__` did not
return an integer. -/
def lenE : LGDO → Except PyError Nat
| .scalar _ => .error (.typeError "object of type Scalar has no len")
| .array l => .ok l.length
| .vov v => .ok v.length
| .table none _ _ => .error (.typeError "NoneType cannot be interpreted as an integer")
| .table (some n) _ _ => .ok n

/-- Python `hasattr(obj, "nda")`: only `Array` carries the flat buffer.
Modelled from the spec for the sibling modules. -/
def hasNda : LGDO → Bool
| .array _ => true
| _ => false

end LGDO

/-- Modelled from the spec: `Array.resize`/`VectorOfVectors.resize`
(absent from the excerpt) change the buffer length to `n`, truncating or
zero-padding. -/
def listResize {α : Type} (l : List α) (n : Nat) (pad : α) : List α :=
  (l ++ List.replicate (n - l.length) pad).take n

mutual
/-- Python `obj.resize(new_size)` on a column.  `Scalar` has no `resize`
attribute (`AttributeError`); a nested `Table` runs `Table.resize` with
the integer `new_size` and default `do_warn=False` (the `isinstance`
branch in the source calls `obj.resize(new_size)` either way). -/
def LGDO.resizeObj : LGDO → Nat → Except PyError LGDO
| .scalar _, _ => .error (.attributeError "Scalar object has no attribute resize")
| .array l, n => .ok (.array (listResize l n 0))
| .vov v, n => .ok (.vov (listResize v n []))
| .table _ loc fs, n => do
  let (fs', sz', _) ← Fields.resizeLoop fs (some n) false
  return .table sz' loc fs'

/-- The field loop of `Table.resize`: threads `new_size` (taken from the
first field when `None`), warns on and resizes each field whose length
differs, and returns the final fields, the final `new_size` and the list
of warned field names. -/
def Fields.resizeLoop : Fields → Option Nat → Bool → Except PyError (Fields × Option Nat × List String)
| .nil, ns, _ => .ok (.nil, ns, [])
| .cons name obj rest, ns, dw =>
  match ns with
  | none => do
    let n ← obj.lenE
    let (rest', ns', ws) ← rest.resizeLoop (some n) dw
    return (.cons name obj rest', ns', ws)
  | some n => do
    let l ← obj.lenE
    if l ≠ n then do
      let obj' ← obj.resizeObj n
      let (rest', ns', ws) ← rest.resizeLoop (some n) dw
      return (.cons name obj' rest', ns', (if dw then [name] else []) ++ ws)
    else do
      let (rest', ns', ws) ← rest.resizeLoop (some n) dw
      return (.cons name obj rest', ns', ws)
end

/-- The in-memory `Table`: `size` attribute (Python `None` or an
integer), `loc` cursor and the ordered column dictionary. -/
structure Table where
  size : Option Nat
  loc : Nat
  fields : Fields
deriving DecidableEq

namespace Table

/-- `Table.resize(new_size, do_warn)`: run the field loop and set
`self.size` to the final `new_size`.  Returns the updated table and the
names of the fields warned about. -/
def resize (t : Table) (newSize : Option Nat) (doWarn : Bool) : Except PyError (Table × List String) := do
  let (fs', sz', ws) ← t.fields.resizeLoop newSize doWarn
  return ({ t with fields := fs', size := sz' }, ws)

/-- `Table.__init__(size, col_dict)`: with a non-empty `col_dict`,
resize all fields (warning only when `size` is `None`); otherwise set
`size` directly, defaulting to 1024.  `loc` always starts at 0.
Returns the constructed table and the warning list. -/
def init (size : Option Nat) (colDict : Option Fields) : Except PyError (Table × List String) :=
  match colDict with
  | some fs@(.cons _ _ _) => do
    let (fs', sz', ws) ← fs.resizeLoop size size.isNone
    return ({ size := sz', loc := 0, fields := fs' }, ws)
  | _ => .ok ({ size := some (size.getD 1024), loc := 0, fields := colDict.getD .nil }, [])

/-- `Table.__len__`: returns the `size` attribute (which can be Python
`None`). -/
def lenT (t : Table) : Option Nat := t.size

/-- `Table.push_row`: `self.loc += 1`. -/
def push_row (t : Table) : Table := { t with loc := t.loc + 1 }

/-- `Table.is_full`: `self.loc >= self.size`; comparing an integer with
`None` raises `TypeError`. -/
def is_full (t : Table) : Except PyError Bool :=
  match t.size with
  | some n => .ok (decide (t.loc ≥ n))
  | none => .error (.typeError "ge not supported between instances of int and NoneType")

/-- `Table.clear`: `self.loc = 0`. -/
def clear (t : Table) : Table := { t with loc := 0 }

/-- `Table.add_field(name, obj, use_obj_size)`: raise `TypeError` when
`obj` has no `__len__`; otherwise insert the field and, when
`self.size != len(obj)`, resize to `len(obj)` (if `use_obj_size`) or to
the current `self.size` (note the source does not forward `do_warn` to
`resize`, so no warnings are emitted here). -/
def add_field (t : Table) (name : String) (obj : LGDO) (useObjSize : Bool) (doWarn : Bool) : Except PyError Table :=
  if obj.hasLen = false then .error (.typeError "cannot add field of this type") else do
  let fs := t.fields.insert name obj
  let objLen ← obj.lenE
  if t.size ≠ some objLen then do
    let ns : Option Nat := if useObjSize then some objLen else t.size
    let (fs', sz', _) ← fs.resizeLoop ns false
    return { size := sz', loc := t.loc, fields := fs' }
  else
    return { t with fields := fs }

/-- `Table.add_column`: alias for `add_field`. -/
def add_column (t : Table) (name : String) (obj : LGDO) (useObjSize : Bool) (doWarn : Bool) : Except PyError Table :=
  t.add_field name obj useObjSize doWarn

/-- `Table.join(other_table, cols, do_warn)`: warn when the `loc`
cursors differ, then `add_column` each requested column of
`other_table` (all of them when `cols` is `None`); a missing requested
name raises `KeyError` from the `dict` subscript. -/
def join (t : Table) (other : Table) (cols : Option (List String)) (doWarn : Bool) : Except PyError (Table × List String) := do
  let ws : List String := if other.loc ≠ t.loc ∧ doWarn then ["loc mismatch"] else []
  let cs := cols.getD other.fields.keys
  let t' ← cs.foldlM (fun acc name =>
    match other.fields.lookup name with
    | none => .error (.keyError name)
    | some obj => acc.add_column name obj false doWarn) t
  return (t', ws)

end Table

/-- Modelled from the spec: a `pandas.DataFrame` as used here is an
insertion-ordered map from column names to flat numeric columns. -/
abbrev DataFrame : Type := List (String × List Int)

/-- Modelled from the spec: `df[col] = values` — an existing column is
overwritten in place, a new one is appended. -/
def dfAssign (df : DataFrame) (k : String) (v : List Int) : DataFrame :=
  match df with
  | [] => [(k, v)]
  | (k', v') :: rest => if k' = k then (k', v) :: rest else (k', v') :: dfAssign rest k v

/-- Modelled from the spec: `df[col]` read access (the uses in `eval`
always follow an assignment to `col`). -/
def dfGet (df : DataFrame) (k : String) : List Int :=
  match df with
  | [] => []
  | (k', v') :: rest => if k' = k then v' else dfGet rest k

namespace Table

/-- `Table.get_dataframe(cols, copy)`: for each requested column
(default: all columns) look it up (`KeyError` when absent), raise
`ValueError` when it has no `nda`, else assign its `nda` into the
dataframe.  The `copy` flag only controls buffer sharing and does not
affect the resulting columns. -/
def get_dataframe (t : Table) (cols : Option (List String)) (copy : Bool) : Except PyError DataFrame :=
  let cs := cols.getD t.fields.keys
  cs.foldlM (fun df col =>
    match t.fields.lookup col with
    | none => .error (.keyError col)
    | some obj =>
      match obj with
      | .array l => .ok (dfAssign df col l)
      | _ => .error (.valueError col)) []

/-- `Table.eval(expr_config)`: build a dataframe from all columns,
create a fresh output table of the same size, then for each
`(out_var, expression)` block in order assign
`df[out_var] = engine df expression` (the `pandas.DataFrame.eval` call
on the numexpr engine, abstracted as the `engine` oracle which also
absorbs the optional `parameters` dict) and add `Array(df[out_var])` as
a column of the output table. -/
def eval (t : Table) (cfg : List (String × String)) (engine : DataFrame → String → List Int) : Except PyError Table := do
  let df ← t.get_dataframe none false
  let (out0, _) ← Table.init t.size none
  let (_, out') ← cfg.foldlM (fun (st : DataFrame × Table) kv => do
    let df' := dfAssign st.1 kv.1 (engine st.1 kv.2)
    let out' ← st.2.add_column kv.1 (.array (dfGet df' kv.1)) false true
    return (df', out')) (df, out0)
  return out'

end Table

/-! ## Well-formedness predicates -/

/-- Every field of the dictionary has a defined integer length equal to
`n` (the equal-length-columns property at row count `n`). -/
def Fields.allLen (fs : Fields) (n : Nat) : Prop :=
  ∀ p ∈ fs.toList, p.2.lenE = .ok n

instance (fs : Fields) (n : Nat) : Decidable (fs.allLen n) := by
  unfold Fields.allLen; infer_instance

/-- The table invariant claimed by the spec: every column's length
equals the table's `size` attribute. -/
def Table.invariant (t : Table) : Prop :=
  ∀ p ∈ t.fields.toList, ∃ n, t.size = some n ∧ p.2.lenE = .ok n

instance (t : Table) : Decidable t.invariant := by
  unfold Table.invariant; infer_instance

/-- Boolean check that every field's length is defined and equals `n`. -/
def Fields.checkLen : Fields → Nat → Bool
| .nil, _ => true
| .cons _ obj rest, n => decide (obj.lenE = .ok n) && rest.checkLen n

mutual
/-- Deep well-formedness of a column object: it is resizable (not a
`Scalar`), its length is defined, and a nested table satisfies the
equal-length invariant recursively. -/
def LGDO.deepWF : LGDO → Bool
| .scalar _ => false
| .array _ => true
| .vov _ => true
| .table sz _ fs =>
  match sz with
  | none => false
  | some n => fs.checkLen n && Fields.allDeepWF fs

/-- Every column object of the dictionary is deeply well-formed. -/
def Fields.allDeepWF : Fields → Bool
| .nil => true
| .cons _ obj rest => obj.deepWF && rest.allDeepWF
end

/-- A table is deeply well-formed when its `size` is an integer matching
every column's length, recursively through nested tables. -/
def Table.deepWFT (t : Table) : Bool :=
  match t.size with
  | none => false
  | some n => t.fields.checkLen n && t.fields.allDeepWF

/-- The names of the fields whose length differs from `n` (in order) —
the fields `Table.resize` warns about when `do_warn=True`. -/
def Fields.mismatchNames (fs : Fields) (n : Nat) : List String :=
  match fs with
  | .nil => []
  | .cons k obj rest =>
    (if obj.lenE ≠ .ok n then [k] else []) ++ rest.mismatchNames n


/-! ## Core lemmas about `resize` -/

theorem except_bind_ok {ε α β : Type} {e : Except ε α} {f : α → Except ε β} {b : β} :
    e.bind f = .ok b ↔ ∃ a, e = .ok a ∧ f a = .ok b := by
  cases e <;> simp [Except.bind]

theorem listResize_length {α : Type} (l : List α) (n : Nat) (pad : α) :
    (listResize l n pad).length = n := by
  simp [listResize]; omega

theorem resizeLoop_spec : ∀ (fs : Fields) (ns : Option Nat) (dw : Bool),
    ∀ fs' sz' ws, fs.resizeLoop ns dw = .ok (fs', sz', ws) →
      fs'.keys = fs.keys ∧
      (∀ n, ns = some n → sz' = some n ∧ fs'.checkLen n = true ∧
        ws = (if dw then fs.mismatchNames n else [])) ∧
      (ns = none → (fs = .nil ∧ fs' = .nil ∧ sz' = none ∧ ws = []) ∨
        (∃ v, sz' = some v ∧ fs'.checkLen v = true ∧
          ws = (if dw then fs.mismatchNames v else []))) := by
  intro fs ns dw
  induction fs, ns, dw using Fields.resizeLoop.induct with
  | motive_1 o n => exact ∀ o', o.resizeObj n = .ok o' → o'.lenE = .ok n
  | case1 a x =>
    intro o' h
    simp [LGDO.resizeObj] at h
  | case2 l n =>
    intro o' h
    simp [LGDO.resizeObj] at h
    subst h
    simp [LGDO.lenE, listResize_length]
  | case3 v n =>
    intro o' h
    simp [LGDO.resizeObj] at h
    subst h
    simp [LGDO.lenE, listResize_length]
  | case4 a loc fs n ih =>
    intro o' h
    simp only [LGDO.resizeObj, bind] at h
    rw [except_bind_ok] at h
    obtain ⟨⟨fs', sz', ws⟩, h1, h2⟩ := h
    simp only [pure, Except.pure, Except.ok.injEq] at h2
    subst h2
    obtain ⟨-, hsome, -⟩ := ih fs' sz' ws h1
    obtain ⟨rfl, -, -⟩ := hsome n rfl
    simp [LGDO.lenE]
  | case5 ns x =>
    intro fs' sz' ws h
    simp only [Fields.resizeLoop, Except.ok.injEq, Prod.mk.injEq] at h
    obtain ⟨rfl, rfl, rfl⟩ := h
    refine ⟨rfl, ?_, ?_⟩
    · intro n hn; subst hn; simp [Fields.checkLen, Fields.mismatchNames]
    · intro hn; subst hn; exact Or.inl ⟨rfl, rfl, rfl, rfl⟩
  | case6 name obj rest dw ih =>
    intro fs' sz' ws h
    simp only [Fields.resizeLoop, bind] at h
    rw [except_bind_ok] at h
    obtain ⟨v, hv, h⟩ := h
    rw [except_bind_ok] at h
    obtain ⟨⟨rest', ns', ws'⟩, hrest, h⟩ := h
    simp only [pure, Except.pure, Except.ok.injEq, Prod.mk.injEq] at h
    obtain ⟨rfl, rfl, rfl⟩ := h
    obtain ⟨hkeys, hsome, -⟩ := ih v rest' ns' ws' hrest
    obtain ⟨rfl, hcl, hws⟩ := hsome v rfl
    refine ⟨by simp [Fields.keys, hkeys], ?_, ?_⟩
    · intro n hn; cases hn
    · intro _
      refine Or.inr ⟨v, rfl, ?_, ?_⟩
      · simp [Fields.checkLen, hv, hcl]
      · simp [Fields.mismatchNames, hv, hws]
  | case7 name obj rest dw n ih1 ih2 =>
    intro fs' sz' ws h
    simp only [Fields.resizeLoop, bind] at h
    rw [except_bind_ok] at h
    obtain ⟨l, hl, h⟩ := h
    by_cases hln : l = n
    · subst hln
      simp only [ne_eq, not_true_eq_false, if_neg, ite_false, reduceIte] at h
      rw [except_bind_ok] at h
      obtain ⟨⟨rest', ns', ws'⟩, hrest, h⟩ := h
      simp only [pure, Except.pure, Except.ok.injEq, Prod.mk.injEq] at h
      obtain ⟨rfl, rfl, rfl⟩ := h
      obtain ⟨hkeys, hsome, -⟩ := ih2 rest' ns' ws' hrest
      obtain ⟨rfl, hcl, hws⟩ := hsome l rfl
      refine ⟨by simp [Fields.keys, hkeys], ?_, ?_⟩
      · intro n hn
        injection hn with hn; subst hn
        refine ⟨rfl, by simp [Fields.checkLen, hl, hcl], ?_⟩
        simp [Fields.mismatchNames, hl, hws]
      · intro hn; cases hn
    · simp only [ne_eq, hln, not_false_eq_true, if_pos, ite_true, reduceIte] at h
      rw [except_bind_ok] at h
      obtain ⟨obj', hobj, h⟩ := h
      rw [except_bind_ok] at h
      obtain ⟨⟨rest', ns', ws'⟩, hrest, h⟩ := h
      simp only [pure, Except.pure, Except.ok.injEq, Prod.mk.injEq] at h
      obtain ⟨rfl, rfl, rfl⟩ := h
      obtain ⟨hkeys, hsome, -⟩ := ih2 rest' ns' ws' hrest
      obtain ⟨rfl, hcl, hws⟩ := hsome n rfl
      have hlen' := ih1 obj' hobj
      refine ⟨by simp [Fields.keys, hkeys], ?_, ?_⟩
      · intro m hm
        injection hm with hm; subst hm
        refine ⟨rfl, by simp [Fields.checkLen, hlen', hcl], ?_⟩
        have hne : obj.lenE ≠ .ok n := by
          rw [hl]; intro hc; injection hc with hc; exact hln hc
        simp only [Fields.mismatchNames, ne_eq, hne, not_false_eq_true, if_pos, hws]
        cases dw <;> simp
      · intro hn; cases hn

theorem deepWF_lenE {o : LGDO} (h : o.deepWF = true) : ∃ v, o.lenE = .ok v := by
  match o with
  | .scalar _ => simp [LGDO.deepWF] at h
  | .array l => exact ⟨l.length, rfl⟩
  | .vov v => exact ⟨v.length, rfl⟩
  | .table sz loc fs =>
    match sz with
    | none => simp [LGDO.deepWF] at h
    | some n => exact ⟨n, rfl⟩

theorem resizeLoop_wf_total : ∀ (fs : Fields) (ns : Option Nat) (dw : Bool),
    fs.allDeepWF = true →
    ∃ fs' sz' ws, fs.resizeLoop ns dw = .ok (fs', sz', ws) ∧ fs'.allDeepWF = true := by
  intro fs ns dw
  induction fs, ns, dw using Fields.resizeLoop.induct with
  | motive_1 o n => exact o.deepWF = true → ∃ o', o.resizeObj n = .ok o' ∧ o'.deepWF = true
  | case1 a x =>
    intro h; simp [LGDO.deepWF] at h
  | case2 l n =>
    intro _; exact ⟨.array (listResize l n 0), rfl, rfl⟩
  | case3 v n =>
    intro _; exact ⟨.vov (listResize v n []), rfl, rfl⟩
  | case4 a loc fs n ih =>
    intro h
    match a with
    | none => simp [LGDO.deepWF] at h
    | some m =>
      simp only [LGDO.deepWF, Bool.and_eq_true] at h
      obtain ⟨hcl, hwf⟩ := h
      obtain ⟨fs', sz', ws, hok, hwf'⟩ := ih hwf
      refine ⟨.table sz' loc fs', ?_, ?_⟩
      · simp only [LGDO.resizeObj, bind, except_bind_ok]
        exact ⟨(fs', sz', ws), hok, rfl⟩
      · obtain ⟨-, hsome, -⟩ := resizeLoop_spec fs (some n) false fs' sz' ws hok
        obtain ⟨rfl, hcl', -⟩ := hsome n rfl
        simp [LGDO.deepWF, hcl', hwf']
  | case5 ns x =>
    intro _; exact ⟨.nil, ns, [], rfl, rfl⟩
  | case6 name obj rest dw ih =>
    intro h
    simp only [Fields.allDeepWF, Bool.and_eq_true] at h
    obtain ⟨hobj, hrest⟩ := h
    obtain ⟨v, hv⟩ := deepWF_lenE hobj
    obtain ⟨rest', ns', ws, hok, hwf'⟩ := ih v hrest
    refine ⟨.cons name obj rest', ns', ws, ?_, ?_⟩
    · simp only [Fields.resizeLoop, bind, except_bind_ok]
      exact ⟨v, hv, ⟨(rest', ns', ws), hok, rfl⟩⟩
    · simp [Fields.allDeepWF, hobj, hwf']
  | case7 name obj rest dw n ih1 ih2 =>
    intro h
    simp only [Fields.allDeepWF, Bool.and_eq_true] at h
    obtain ⟨hobj, hrest⟩ := h
    obtain ⟨l, hl⟩ := deepWF_lenE hobj
    obtain ⟨rest', ns', ws, hok, hwf'⟩ := ih2 hrest
    by_cases hln : l = n
    · subst hln
      refine ⟨.cons name obj rest', ns', ws, ?_, ?_⟩
      · simp [Fields.resizeLoop, hl, hok, bind, Except.bind, pure, Except.pure]
      · simp [Fields.allDeepWF, hobj, hwf']
    · obtain ⟨obj', hobj', hwfo⟩ := ih1 hobj
      refine ⟨.cons name obj' rest', ns', (if dw then [name] else []) ++ ws, ?_, ?_⟩
      · simp [Fields.resizeLoop, hl, hln, hobj', hok, bind, Except.bind, pure, Except.pure]
      · simp [Fields.allDeepWF, hwfo, hwf']

/-! ## Helper lemmas on dictionaries and well-formedness -/

/-- Structural induction for `Fields` alone (the mutual recursor needs a
motive for `LGDO` too, which these dictionary lemmas do not). -/
def Fields.inductionOn {motive : Fields → Prop} (fs : Fields)
    (nil : motive .nil)
    (cons : ∀ k v rest, motive rest → motive (.cons k v rest)) : motive fs :=
  match fs with
  | .nil => nil
  | .cons k v rest => cons k v rest (Fields.inductionOn rest nil cons)

theorem Fields.checkLen_iff {fs : Fields} {n : Nat} :
    fs.checkLen n = true ↔ ∀ p ∈ fs.toList, p.2.lenE = .ok n := by
  induction fs using Fields.inductionOn with
  | nil => simp [Fields.checkLen, Fields.toList]
  | cons k v rest ih => simp [Fields.checkLen, Fields.toList, ih]

theorem Fields.lookup_mem {fs : Fields} {k : String} {v : LGDO}
    (h : fs.lookup k = some v) : (k, v) ∈ fs.toList := by
  induction fs using Fields.inductionOn with
  | nil => simp [Fields.lookup] at h
  | cons k' v' rest ih =>
    simp only [Fields.lookup] at h
    by_cases hk : k' = k
    · subst hk; simp at h; subst h; simp [Fields.toList]
    · simp [hk] at h; simp [Fields.toList, ih h]

theorem Fields.mem_keys_lookup {fs : Fields} {k : String}
    (h : k ∈ fs.keys) : ∃ v, fs.lookup k = some v := by
  induction fs using Fields.inductionOn with
  | nil => simp [Fields.keys] at h
  | cons k' v' rest ih =>
    simp only [Fields.keys, List.mem_cons] at h
    by_cases hk : k' = k
    · exact ⟨v', by simp [Fields.lookup, hk]⟩
    · cases h with
      | inl h => exact absurd h.symm hk
      | inr h => obtain ⟨v, hv⟩ := ih h; exact ⟨v, by simp [Fields.lookup, hk, hv]⟩

theorem Fields.lookup_insert_self (fs : Fields) (k : String) (v : LGDO) :
    (fs.insert k v).lookup k = some v := by
  induction fs using Fields.inductionOn with
  | nil => simp [Fields.insert, Fields.lookup]
  | cons k' v' rest ih =>
    by_cases hk : k' = k <;> simp [Fields.insert, Fields.lookup, hk, ih]

theorem Fields.lookup_insert_ne (fs : Fields) {k k' : String} (v : LGDO)
    (h : k' ≠ k) : (fs.insert k v).lookup k' = fs.lookup k' := by
  have hne : ¬ k = k' := fun hc => h hc.symm
  induction fs using Fields.inductionOn with
  | nil => simp [Fields.insert, Fields.lookup, hne]
  | cons k'' v'' rest ih =>
    by_cases hk : k'' = k
    · subst hk; simp [Fields.insert, Fields.lookup, hne]
    · simp [Fields.insert, hk, Fields.lookup, ih]

theorem Fields.toList_insert {fs : Fields} {k : String} {v : LGDO} :
    ∀ p ∈ (fs.insert k v).toList, (p.1 = k ∧ p.2 = v) ∨ p ∈ fs.toList := by
  induction fs using Fields.inductionOn with
  | nil => simp [Fields.insert, Fields.toList]
  | cons k' v' rest ih =>
    intro p hp
    by_cases hk : k' = k
    · subst hk
      simp only [Fields.insert, reduceIte, Fields.toList, List.mem_cons] at hp ⊢
      cases hp with
      | inl h => subst h; exact Or.inl ⟨rfl, rfl⟩
      | inr h => exact Or.inr (Or.inr h)
    · simp only [Fields.insert, hk, ite_false, reduceIte, Fields.toList, List.mem_cons] at hp ⊢
      cases hp with
      | inl h => exact Or.inr (Or.inl h)
      | inr h =>
        cases ih p h with
        | inl h' => exact Or.inl h'
        | inr h' => exact Or.inr (Or.inr h')

theorem Fields.keys_insert_fresh {fs : Fields} {k : String} (v : LGDO)
    (h : k ∉ fs.keys) : (fs.insert k v).keys = fs.keys ++ [k] := by
  induction fs using Fields.inductionOn with
  | nil => simp [Fields.insert, Fields.keys]
  | cons k' v' rest ih =>
    simp only [Fields.keys, List.mem_cons] at h
    push_neg at h
    simp [Fields.insert, Ne.symm h.1, Fields.keys, ih h.2]

theorem Fields.toList_insert_fresh {fs : Fields} {k : String} (v : LGDO)
    (h : k ∉ fs.keys) : (fs.insert k v).toList = fs.toList ++ [(k, v)] := by
  induction fs using Fields.inductionOn with
  | nil => simp [Fields.insert, Fields.toList]
  | cons k' v' rest ih =>
    simp only [Fields.keys, List.mem_cons] at h
    push_neg at h
    simp [Fields.insert, Ne.symm h.1, Fields.toList, ih h.2]

theorem Fields.mem_keys_insert (fs : Fields) (k : String) (v : LGDO) :
    k ∈ (fs.insert k v).keys := by
  induction fs using Fields.inductionOn with
  | nil => simp [Fields.insert, Fields.keys]
  | cons k' v' rest ih =>
    by_cases hk : k' = k <;> simp [Fields.insert, hk, Fields.keys, ih]

theorem LGDO.hasLen_of_lenE {o : LGDO} {n : Nat} (h : o.lenE = .ok n) :
    o.hasLen = true := by
  cases o with
  | scalar x => simp [LGDO.lenE] at h
  | array l => rfl
  | vov v => rfl
  | table sz loc fs => cases sz <;> simp [LGDO.hasLen]

theorem LGDO.hasLen_of_deepWF {o : LGDO} (h : o.deepWF = true) :
    o.hasLen = true := by
  cases o with
  | scalar x => simp [LGDO.deepWF] at h
  | array l => rfl
  | vov v => rfl
  | table sz loc fs => cases sz <;> simp [LGDO.hasLen]

theorem Fields.allDeepWF_iff {fs : Fields} :
    fs.allDeepWF = true ↔ ∀ p ∈ fs.toList, p.2.deepWF = true := by
  induction fs using Fields.inductionOn with
  | nil => simp [Fields.allDeepWF, Fields.toList]
  | cons k v rest ih => simp [Fields.allDeepWF, Fields.toList, ih]

theorem Fields.allDeepWF_insert {fs : Fields} {k : String} {v : LGDO}
    (hfs : fs.allDeepWF = true) (hv : v.deepWF = true) :
    (fs.insert k v).allDeepWF = true := by
  rw [Fields.allDeepWF_iff]
  intro p hp
  cases Fields.toList_insert p hp with
  | inl h => rw [h.2]; exact hv
  | inr h => exact (Fields.allDeepWF_iff.mp hfs) p h

/-- The table invariant follows from a successful length check. -/
theorem Table.invariant_of_checkLen {t : Table} {n : Nat}
    (hs : t.size = some n) (hc : t.fields.checkLen n = true) : t.invariant := by
  intro p hp
  exact ⟨n, hs, Fields.checkLen_iff.mp hc p hp⟩

theorem dfGet_dfAssign_self (df : DataFrame) (k : String) (v : List Int) :
    dfGet (dfAssign df k v) k = v := by
  induction df with
  | nil => simp [dfAssign, dfGet]
  | cons p rest ih =>
    obtain ⟨k', v'⟩ := p
    by_cases hk : k' = k <;> simp [dfAssign, dfGet, hk, ih]

/-! ## Unfolding lemmas for the monadic operations -/

theorem Table.resize_eq_ok {t : Table} {ns : Option Nat} {dw : Bool} {t' : Table} {ws : List String} :
    t.resize ns dw = .ok (t', ws) ↔
      ∃ fs' sz', t.fields.resizeLoop ns dw = .ok (fs', sz', ws) ∧
        t' = { t with fields := fs', size := sz' } := by
  constructor
  · intro h
    simp only [Table.resize, bind] at h
    rw [except_bind_ok] at h
    obtain ⟨⟨fs', sz', ws'⟩, h1, h2⟩ := h
    simp only [pure, Except.pure, Except.ok.injEq, Prod.mk.injEq] at h2
    obtain ⟨rfl, rfl⟩ := h2
    exact ⟨fs', sz', h1, rfl⟩
  · rintro ⟨fs', sz', h1, rfl⟩
    simp [Table.resize, h1, bind, Except.bind, pure, Except.pure]

theorem Table.init_cons_eq_ok {sz : Option Nat} {k : String} {o : LGDO} {rest : Fields}
    {t : Table} {ws : List String} :
    Table.init sz (some (.cons k o rest)) = .ok (t, ws) ↔
      ∃ fs' sz', (Fields.cons k o rest).resizeLoop sz sz.isNone = .ok (fs', sz', ws) ∧
        t = { size := sz', loc := 0, fields := fs' } := by
  constructor
  · intro h
    simp only [Table.init, bind] at h
    rw [except_bind_ok] at h
    obtain ⟨⟨fs', sz', ws'⟩, h1, h2⟩ := h
    simp only [pure, Except.pure, Except.ok.injEq, Prod.mk.injEq] at h2
    obtain ⟨rfl, rfl⟩ := h2
    exact ⟨fs', sz', h1, rfl⟩
  · rintro ⟨fs', sz', h1, rfl⟩
    simp [Table.init, h1, bind, Except.bind, pure, Except.pure]

theorem Table.add_field_eq_ok {t : Table} {name : String} {obj : LGDO} {uos dw : Bool} {t' : Table} :
    t.add_field name obj uos dw = .ok t' ↔
      obj.hasLen = true ∧ ∃ ln, obj.lenE = .ok ln ∧
        ((t.size = some ln ∧ t' = { t with fields := t.fields.insert name obj }) ∨
         (t.size ≠ some ln ∧ ∃ fs' sz' ws,
           (t.fields.insert name obj).resizeLoop (if uos then some ln else t.size) false =
             .ok (fs', sz', ws) ∧
           t' = { size := sz', loc := t.loc, fields := fs' })) := by
  constructor
  · intro h
    simp only [Table.add_field] at h
    by_cases hl : obj.hasLen = false
    · simp [hl] at h
    · rw [Bool.not_eq_false] at hl
      simp only [hl, Bool.true_eq_false, if_neg, ite_false, reduceIte, bind] at h
      rw [except_bind_ok] at h
      obtain ⟨ln, hln, h⟩ := h
      refine ⟨hl, ln, hln, ?_⟩
      by_cases hs : t.size = some ln
      · rw [if_neg (by simp [hs])] at h
        simp only [pure, Except.pure, Except.ok.injEq] at h
        exact Or.inl ⟨hs, h.symm⟩
      · simp only [ne_eq, hs, not_false_eq_true, reduceIte, bind] at h
        rw [except_bind_ok] at h
        obtain ⟨⟨fs', sz', ws'⟩, h1, h2⟩ := h
        simp only [pure, Except.pure, Except.ok.injEq] at h2
        exact Or.inr ⟨hs, fs', sz', ws', h1, h2.symm⟩
  · rintro ⟨hl, ln, hln, h⟩
    cases h with
    | inl h =>
      obtain ⟨hs, rfl⟩ := h
      simp [Table.add_field, hl, hln, hs, bind, Except.bind, pure, Except.pure]
    | inr h =>
      obtain ⟨hs, fs', sz', ws', h1, rfl⟩ := h
      simp [Table.add_field, hl, hln, hs, h1, bind, Except.bind, pure, Except.pure]

/-- In the matching-size case `add_field` just inserts the column. -/
theorem Table.add_field_fast {t : Table} {name : String} {obj : LGDO} {uos dw : Bool} {n : Nat}
    (hs : t.size = some n) (hl : obj.lenE = .ok n) :
    t.add_field name obj uos dw = .ok { t with fields := t.fields.insert name obj } :=
  Table.add_field_eq_ok.mpr ⟨LGDO.hasLen_of_lenE hl, n, hl, Or.inl ⟨hs, rfl⟩⟩

theorem resizeLoop_none_cons {k : String} {o : LGDO} {rest : Fields} {dw : Bool}
    {fs' : Fields} {sz' : Option Nat} {ws : List String}
    (h : (Fields.cons k o rest).resizeLoop none dw = .ok (fs', sz', ws)) :
    ∃ v rest', o.lenE = .ok v ∧ rest.resizeLoop (some v) dw = .ok (rest', sz', ws) ∧
      fs' = .cons k o rest' := by
  simp only [Fields.resizeLoop, bind] at h
  rw [except_bind_ok] at h
  obtain ⟨v, hv, h⟩ := h
  rw [except_bind_ok] at h
  obtain ⟨⟨rest', ns', ws'⟩, hrest, h⟩ := h
  simp only [pure, Except.pure, Except.ok.injEq, Prod.mk.injEq] at h
  obtain ⟨rfl, rfl, rfl⟩ := h
  exact ⟨v, rest', hv, hrest, rfl⟩

/-- Whatever comes out of the resize loop satisfies the equal-length
invariant when packed into a table with the returned size. -/
theorem invariant_of_resizeLoop {fs : Fields} {ns : Option Nat} {dw : Bool}
    {fs' : Fields} {sz' : Option Nat} {ws : List String}
    (h : fs.resizeLoop ns dw = .ok (fs', sz', ws)) (loc : Nat) :
    Table.invariant ⟨sz', loc, fs'⟩ := by
  match ns with
  | some n =>
    obtain ⟨-, hsome, -⟩ := resizeLoop_spec fs (some n) dw fs' sz' ws h
    obtain ⟨rfl, hcl, -⟩ := hsome n rfl
    exact Table.invariant_of_checkLen rfl hcl
  | none =>
    obtain ⟨-, -, hnone⟩ := resizeLoop_spec fs none dw fs' sz' ws h
    cases hnone rfl with
    | inl hcase =>
      obtain ⟨-, rfl, rfl, -⟩ := hcase
      intro p hp; simp [Fields.toList] at hp
    | inr hcase =>
      obtain ⟨v, rfl, hcl, -⟩ := hcase
      exact Table.invariant_of_checkLen rfl hcl

theorem init_invariant {sz : Option Nat} {cd : Option Fields} {t : Table} {ws : List String}
    (h : Table.init sz cd = .ok (t, ws)) : t.invariant := by
  match cd with
  | none =>
    simp only [Table.init, Except.ok.injEq, Prod.mk.injEq] at h
    obtain ⟨rfl, -⟩ := h
    intro p hp; simp [Option.getD, Fields.toList] at hp
  | some .nil =>
    simp only [Table.init, Except.ok.injEq, Prod.mk.injEq] at h
    obtain ⟨rfl, -⟩ := h
    intro p hp; simp [Option.getD, Fields.toList] at hp
  | some (.cons k o rest) =>
    rw [Table.init_cons_eq_ok] at h
    obtain ⟨fs', sz', h1, rfl⟩ := h
    exact invariant_of_resizeLoop h1 0

theorem resize_invariant {t : Table} {ns : Option Nat} {dw : Bool} {t' : Table} {ws : List String}
    (h : t.resize ns dw = .ok (t', ws)) : t'.invariant := by
  rw [Table.resize_eq_ok] at h
  obtain ⟨fs', sz', h1, rfl⟩ := h
  exact invariant_of_resizeLoop h1 t.loc

theorem add_field_invariant {t : Table} {name : String} {obj : LGDO} {uos dw : Bool} {t' : Table}
    (hinv : t.invariant) (h : t.add_field name obj uos dw = .ok t') : t'.invariant := by
  rw [Table.add_field_eq_ok] at h
  obtain ⟨-, ln, hln, h⟩ := h
  cases h with
  | inl hcase =>
    obtain ⟨hs, rfl⟩ := hcase
    intro p hp
    cases Fields.toList_insert p hp with
    | inl he => exact ⟨ln, hs, he.2 ▸ hln⟩
    | inr hm => exact hinv p hm
  | inr hcase =>
    obtain ⟨-, fs', sz', ws, h1, rfl⟩ := hcase
    exact invariant_of_resizeLoop h1 t.loc

theorem join_fold_invariant {other : Table} {dw : Bool} :
    ∀ (cs : List String) (acc : Table), acc.invariant →
    ∀ t', (cs.foldlM (fun acc name =>
        match other.fields.lookup name with
        | none => .error (.keyError name)
        | some obj => acc.add_column name obj false dw) acc : Except PyError Table) = .ok t' →
      t'.invariant := by
  intro cs
  induction cs with
  | nil =>
    intro acc hacc t' h
    simp only [List.foldlM_nil, pure, Except.pure, Except.ok.injEq] at h
    exact h ▸ hacc
  | cons c cs ih =>
    intro acc hacc t' h
    simp only [List.foldlM_cons, bind] at h
    rw [except_bind_ok] at h
    obtain ⟨acc1, h1, h2⟩ := h
    match hl : other.fields.lookup c with
    | none => rw [hl] at h1; cases h1
    | some obj =>
      rw [hl] at h1
      exact ih acc1 (add_field_invariant hacc h1) t' h2

theorem join_invariant {t other : Table} {cols : Option (List String)} {dw : Bool}
    {t' : Table} {ws : List String}
    (hinv : t.invariant) (h : t.join other cols dw = .ok (t', ws)) : t'.invariant := by
  simp only [Table.join, bind] at h
  rw [except_bind_ok] at h
  obtain ⟨t1, h1, h2⟩ := h
  simp only [pure, Except.pure, Except.ok.injEq, Prod.mk.injEq] at h2
  obtain ⟨rfl, -⟩ := h2
  exact join_fold_invariant _ t hinv t1 h1

/-! ## Claim theorems -/

/-- C10: default construction — `Table()` with `size=None` and `col_dict`
either `None` or empty yields a table of size 1024 with `loc = 0`, so
`len(table)` is 1024 and `is_full()` is false. -/
theorem claim_C10_default_construction :
    Table.init none none = .ok ({ size := some 1024, loc := 0, fields := .nil }, []) ∧
    Table.init none (some .nil) = .ok ({ size := some 1024, loc := 0, fields := .nil }, []) ∧
    Table.lenT { size := some 1024, loc := 0, fields := .nil } = some 1024 ∧
    Table.is_full { size := some 1024, loc := 0, fields := .nil } = .ok false :=
  ⟨rfl, rfl, rfl, by decide⟩

/-- C2: `loc` cursor semantics — construction sets `loc = 0`; `push_row`
increments `loc` by exactly 1 and changes nothing else; `clear` resets
`loc` to 0 (changing nothing else); and when `size` is an integer,
`is_full()` returns true iff `loc >= size`. -/
theorem claim_C2_loc_cursor :
    (∀ sz cd t ws, Table.init sz cd = .ok (t, ws) → t.loc = 0) ∧
    (∀ t : Table, t.push_row.loc = t.loc + 1 ∧ t.push_row.size = t.size ∧
      t.push_row.fields = t.fields) ∧
    (∀ t : Table, t.clear.loc = 0 ∧ t.clear.size = t.size ∧ t.clear.fields = t.fields) ∧
    (∀ (t : Table) n, t.size = some n → (t.is_full = .ok true ↔ t.loc ≥ n)) := by
  refine ⟨?_, fun t => ⟨rfl, rfl, rfl⟩, fun t => ⟨rfl, rfl, rfl⟩, ?_⟩
  · intro sz cd t ws h
    match cd with
    | none =>
      simp only [Table.init, Except.ok.injEq, Prod.mk.injEq] at h
      obtain ⟨rfl, -⟩ := h; rfl
    | some .nil =>
      simp only [Table.init, Except.ok.injEq, Prod.mk.injEq] at h
      obtain ⟨rfl, -⟩ := h; rfl
    | some (.cons k o rest) =>
      rw [Table.init_cons_eq_ok] at h
      obtain ⟨fs', sz', -, rfl⟩ := h; rfl
  · intro t n hs
    simp [Table.is_full, hs, decide_eq_true_iff]

/-- Witness for C2 at concrete inputs. -/
theorem claim_C2_witness :
    (Table.mk (some 7) 0 .nil).loc = 0 ∧
    (Table.is_full ⟨some 2, 5, .nil⟩ = .ok true ↔ 5 ≥ 2) :=
  ⟨claim_C2_loc_cursor.1 (some 7) none ⟨some 7, 0, .nil⟩ [] rfl,
   claim_C2_loc_cursor.2.2.2 ⟨some 2, 5, .nil⟩ 2 rfl⟩

/-- C8: `resize()` with `new_size=None` on a table with no columns sets
`size` to `None`, after which `__len__` returns `None` and `is_full()`
raises a `TypeError` when comparing `loc` with `None`; the no-argument
form of `resize` is thus only well-defined with at least one column. -/
theorem claim_C8_resize_none :
    ∀ (t : Table) dw, t.fields = .nil →
      t.resize none dw = .ok ({ t with size := none }, []) ∧
      Table.lenT { t with size := none } = none ∧
      Table.is_full { t with size := none } =
        .error (.typeError "ge not supported between instances of int and NoneType") := by
  intro t dw hf
  refine ⟨?_, rfl, rfl⟩
  rw [Table.resize_eq_ok]
  refine ⟨.nil, none, by rw [hf]; rfl, ?_⟩
  rw [← hf]

/-- Witness for C8 at a concrete empty table. -/
theorem claim_C8_witness :
    Table.fields ⟨some 5, 2, .nil⟩ = .nil ∧
    Table.resize ⟨some 5, 2, .nil⟩ none true = .ok (⟨none, 2, .nil⟩, []) :=
  ⟨rfl, (claim_C8_resize_none ⟨some 5, 2, .nil⟩ true rfl).1⟩

/-- C1: equal-length-columns invariant — after construction and after
every successful mutating operation (`resize`, `add_field`/`add_column`,
`join`), every column's length equals the table's `size` attribute, and
`len(table)` returns that `size`. -/
theorem claim_C1_equal_length_columns :
    (∀ sz cd t ws, Table.init sz cd = .ok (t, ws) → t.invariant ∧ t.lenT = t.size) ∧
    (∀ (t : Table) ns dw t' ws, t.resize ns dw = .ok (t', ws) →
      t'.invariant ∧ t'.lenT = t'.size) ∧
    (∀ (t : Table) name obj uos dw t', t.invariant → t.add_field name obj uos dw = .ok t' →
      t'.invariant ∧ t'.lenT = t'.size) ∧
    (∀ (t : Table) name obj uos dw t', t.invariant → t.add_column name obj uos dw = .ok t' →
      t'.invariant ∧ t'.lenT = t'.size) ∧
    (∀ (t other : Table) cols dw t' ws, t.invariant → t.join other cols dw = .ok (t', ws) →
      t'.invariant ∧ t'.lenT = t'.size) :=
  ⟨fun _ _ _ _ h => ⟨init_invariant h, rfl⟩,
   fun _ _ _ _ _ h => ⟨resize_invariant h, rfl⟩,
   fun _ _ _ _ _ _ hinv h => ⟨add_field_invariant hinv h, rfl⟩,
   fun _ _ _ _ _ _ hinv h => ⟨add_field_invariant hinv h, rfl⟩,
   fun _ _ _ _ _ _ hinv h => ⟨join_invariant hinv h, rfl⟩⟩

/-- Witness for C1: a concrete `add_field` that pads the new column. -/
theorem claim_C1_witness :
    Table.invariant ⟨some 3, 0, .cons "a" (.array [1, 2, 3]) .nil⟩ ∧
    Table.add_field ⟨some 3, 0, .cons "a" (.array [1, 2, 3]) .nil⟩ "x" (.array [1, 2]) false true =
      .ok ⟨some 3, 0, .cons "a" (.array [1, 2, 3]) (.cons "x" (.array [1, 2, 0]) .nil)⟩ ∧
    Table.invariant ⟨some 3, 0, .cons "a" (.array [1, 2, 3]) (.cons "x" (.array [1, 2, 0]) .nil)⟩ :=
  ⟨by decide, by decide,
   (claim_C1_equal_length_columns.2.2.1 ⟨some 3, 0, .cons "a" (.array [1, 2, 3]) .nil⟩
     "x" (.array [1, 2]) false true
     ⟨some 3, 0, .cons "a" (.array [1, 2, 3]) (.cons "x" (.array [1, 2, 0]) .nil)⟩
     (by decide) (by decide)).1⟩

/-- C4: warnings — `resize` with `do_warn=True` warns exactly on the
fields whose length differs from the target size (the first field's
length when `new_size=None`), never with `do_warn=False`; construction
from a non-empty `col_dict` with `size=None` warns on every column whose
length differs from the first column's, and construction with an
explicit `size` emits no warnings. -/
theorem claim_C4_resize_warnings :
    (∀ (t : Table) (n : Nat) t' ws, t.resize (some n) true = .ok (t', ws) →
      ws = t.fields.mismatchNames n) ∧
    (∀ (t : Table) ns t' ws, t.resize ns false = .ok (t', ws) → ws = []) ∧
    (∀ (t : Table) dw t' ws k o rest, t.fields = .cons k o rest →
      t.resize none dw = .ok (t', ws) →
      ∃ v, o.lenE = .ok v ∧ ws = (if dw then t.fields.mismatchNames v else [])) ∧
    (∀ (k : String) (o : LGDO) (rest : Fields) t ws,
      Table.init none (some (.cons k o rest)) = .ok (t, ws) →
      ∃ v, o.lenE = .ok v ∧ ws = (Fields.cons k o rest).mismatchNames v) ∧
    (∀ (n : Nat) cd t ws, Table.init (some n) cd = .ok (t, ws) → ws = []) := by
  refine ⟨?_, ?_, ?_, ?_, ?_⟩
  · intro t n t' ws h
    rw [Table.resize_eq_ok] at h
    obtain ⟨fs', sz', h1, -⟩ := h
    obtain ⟨-, hsome, -⟩ := resizeLoop_spec _ _ _ _ _ _ h1
    obtain ⟨-, -, hws⟩ := hsome n rfl
    simpa using hws
  · intro t ns t' ws h
    rw [Table.resize_eq_ok] at h
    obtain ⟨fs', sz', h1, -⟩ := h
    match ns with
    | some n =>
      obtain ⟨-, hsome, -⟩ := resizeLoop_spec _ _ _ _ _ _ h1
      obtain ⟨-, -, hws⟩ := hsome n rfl
      simpa using hws
    | none =>
      obtain ⟨-, -, hnone⟩ := resizeLoop_spec _ _ _ _ _ _ h1
      cases hnone rfl with
      | inl hcase => exact hcase.2.2.2
      | inr hcase => obtain ⟨v, -, -, hws⟩ := hcase; simpa using hws
  · intro t dw t' ws k o rest hf h
    rw [Table.resize_eq_ok] at h
    obtain ⟨fs', sz', h1, -⟩ := h
    rw [hf] at h1
    obtain ⟨v, rest', hv, hrest, -⟩ := resizeLoop_none_cons h1
    obtain ⟨-, hsome, -⟩ := resizeLoop_spec _ _ _ _ _ _ hrest
    obtain ⟨-, -, hws⟩ := hsome v rfl
    refine ⟨v, hv, ?_⟩
    rw [hf]
    simp only [Fields.mismatchNames, ne_eq, hv, not_true_eq_false, ite_false, reduceIte,
      List.nil_append]
    exact hws
  · intro k o rest t ws h
    rw [Table.init_cons_eq_ok] at h
    obtain ⟨fs', sz', h1, -⟩ := h
    obtain ⟨v, rest', hv, hrest, -⟩ := resizeLoop_none_cons h1
    obtain ⟨-, hsome, -⟩ := resizeLoop_spec _ _ _ _ _ _ hrest
    obtain ⟨-, -, hws⟩ := hsome v rfl
    refine ⟨v, hv, ?_⟩
    simp only [Fields.mismatchNames, ne_eq, hv, not_true_eq_false, ite_false, reduceIte,
      List.nil_append]
    simpa using hws
  · intro n cd t ws h
    match cd with
    | none =>
      simp only [Table.init, Except.ok.injEq, Prod.mk.injEq] at h
      exact h.2.symm
    | some .nil =>
      simp only [Table.init, Except.ok.injEq, Prod.mk.injEq] at h
      exact h.2.symm
    | some (.cons k o rest) =>
      rw [Table.init_cons_eq_ok] at h
      obtain ⟨fs', sz', h1, -⟩ := h
      obtain ⟨-, hsome, -⟩ := resizeLoop_spec _ _ _ _ _ _ h1
      obtain ⟨-, -, hws⟩ := hsome n rfl
      simpa using hws

/-- Witness for C4: a resize that warns on the one mismatched field, and
a warning construction. -/
theorem claim_C4_witness :
    Table.resize ⟨some 9, 0, .cons "a" (.array [1, 2]) .nil⟩ (some 3) true =
      .ok (⟨some 3, 0, .cons "a" (.array [1, 2, 0]) .nil⟩, ["a"]) ∧
    ["a"] = (Fields.cons "a" (.array [1, 2]) .nil).mismatchNames 3 ∧
    Table.init none (some (.cons "a" (.array [1, 2]) (.cons "b" (.array [9]) .nil))) =
      .ok (⟨some 2, 0, .cons "a" (.array [1, 2]) (.cons "b" (.array [9, 0]) .nil)⟩, ["b"]) ∧
    ∃ v, (LGDO.array [1, 2]).lenE = .ok v ∧
      ["b"] = (Fields.cons "a" (.array [1, 2]) (.cons "b" (.array [9]) .nil)).mismatchNames v :=
  ⟨by decide, claim_C4_resize_warnings.1 ⟨some 9, 0, .cons "a" (.array [1, 2]) .nil⟩ 3
      ⟨some 3, 0, .cons "a" (.array [1, 2, 0]) .nil⟩ ["a"] (by decide),
   by decide,
   claim_C4_resize_warnings.2.2.2.1 "a" (.array [1, 2]) (.cons "b" (.array [9]) .nil)
      ⟨some 2, 0, .cons "a" (.array [1, 2]) (.cons "b" (.array [9, 0]) .nil)⟩ ["b"] (by decide)⟩

theorem Table.deepWFT_allDeepWF {t : Table} (h : t.deepWFT = true) :
    t.fields.allDeepWF = true := by
  unfold Table.deepWFT at h
  match hs : t.size with
  | none => rw [hs] at h; simp at h
  | some m => rw [hs] at h; rw [Bool.and_eq_true] at h; exact h.2

theorem Table.deepWFT_size {t : Table} (h : t.deepWFT = true) :
    ∃ n, t.size = some n ∧ t.fields.checkLen n = true := by
  unfold Table.deepWFT at h
  match hs : t.size with
  | none => rw [hs] at h; simp at h
  | some m => rw [hs] at h; rw [Bool.and_eq_true] at h; exact ⟨m, rfl, h.1⟩

theorem resize_some_total {t : Table} (hwf : t.deepWFT = true) (n : Nat) (dw : Bool) :
    ∃ t' ws, t.resize (some n) dw = .ok (t', ws) := by
  obtain ⟨fs', sz', ws, hok, -⟩ :=
    resizeLoop_wf_total t.fields (some n) dw (Table.deepWFT_allDeepWF hwf)
  exact ⟨{ t with fields := fs', size := sz' }, ws,
    Table.resize_eq_ok.mpr ⟨fs', sz', hok, rfl⟩⟩

theorem resize_some_spec {t : Table} {n : Nat} {dw : Bool} {t' : Table} {ws : List String}
    (hwf : t.deepWFT = true) (h : t.resize (some n) dw = .ok (t', ws)) :
    t'.size = some n ∧ t'.fields.checkLen n = true ∧ t'.deepWFT = true ∧
    t'.fields.keys = t.fields.keys ∧ t'.loc = t.loc := by
  rw [Table.resize_eq_ok] at h
  obtain ⟨fs', sz', h1, rfl⟩ := h
  obtain ⟨hkeys, hsome, -⟩ := resizeLoop_spec _ _ _ _ _ _ h1
  obtain ⟨rfl, hcl, -⟩ := hsome n rfl
  have hwf' : fs'.allDeepWF = true := by
    obtain ⟨fs₂, sz₂, ws₂, hok₂, hwf₂⟩ :=
      resizeLoop_wf_total t.fields (some n) dw (Table.deepWFT_allDeepWF hwf)
    rw [h1] at hok₂
    injection hok₂ with he
    obtain ⟨rfl, -⟩ := Prod.mk.injEq .. |>.mp he
    exact hwf₂
  exact ⟨rfl, hcl, by simp [Table.deepWFT, hcl, hwf'], hkeys, rfl⟩

theorem resize_none_first {t : Table} {k : String} {o : LGDO} {rest : Fields} {dw : Bool}
    {t' : Table} {ws : List String}
    (hf : t.fields = .cons k o rest) (h : t.resize none dw = .ok (t', ws)) :
    ∃ v, o.lenE = .ok v ∧ t'.size = some v ∧ t'.fields.checkLen v = true := by
  rw [Table.resize_eq_ok] at h
  obtain ⟨fs', sz', h1, rfl⟩ := h
  rw [hf] at h1
  obtain ⟨v, rest', hv, hrest, rfl⟩ := resizeLoop_none_cons h1
  obtain ⟨-, hsome, -⟩ := resizeLoop_spec _ _ _ _ _ _ hrest
  obtain ⟨rfl, hcl, -⟩ := hsome v rfl
  exact ⟨v, hv, rfl, by simp [Fields.checkLen, hv, hcl]⟩

/-- C3: resize propagation — on a well-formed table, `resize(new_size)`
with an integer `new_size` succeeds, sets the table's `size` to
`new_size` and leaves every column (with nested sub-table columns
recursively resized) at length `new_size`, preserving the column names;
with `new_size=None` and at least one column, the first column's length
becomes the new size for all columns. -/
theorem claim_C3_resize_propagation :
    (∀ (t : Table) (n : Nat) dw, t.deepWFT = true →
      ∃ t' ws, t.resize (some n) dw = .ok (t', ws)) ∧
    (∀ (t : Table) (n : Nat) dw t' ws, t.deepWFT = true →
      t.resize (some n) dw = .ok (t', ws) →
      t'.size = some n ∧ t'.fields.checkLen n = true ∧ t'.deepWFT = true ∧
      t'.fields.keys = t.fields.keys) ∧
    (∀ (t : Table) k o rest dw t' ws, t.fields = .cons k o rest →
      t.resize none dw = .ok (t', ws) →
      ∃ v, o.lenE = .ok v ∧ t'.size = some v ∧ t'.fields.checkLen v = true) :=
  ⟨fun t n dw hwf => resize_some_total hwf n dw,
   fun t n dw t' ws hwf h =>
     (resize_some_spec hwf h).imp id (fun h2 => h2.imp id (fun h3 => h3.imp id And.left)),
   fun t k o rest dw t' ws hf h => resize_none_first hf h⟩

/-- Witness for C3: resizing a table with a nested sub-table column
propagates the new size into the nested columns. -/
theorem claim_C3_witness :
    Table.deepWFT ⟨some 2, 4, .cons "t" (.table (some 2) 5 (.cons "in" (.array [7, 8]) .nil)) .nil⟩ =
      true ∧
    Table.resize ⟨some 2, 4, .cons "t" (.table (some 2) 5 (.cons "in" (.array [7, 8]) .nil)) .nil⟩
      (some 4) true =
      .ok (⟨some 4, 4, .cons "t" (.table (some 4) 5 (.cons "in" (.array [7, 8, 0, 0]) .nil)) .nil⟩,
        ["t"]) ∧
    Table.size ⟨some 4, 4, .cons "t" (.table (some 4) 5 (.cons "in" (.array [7, 8, 0, 0]) .nil)) .nil⟩ =
      some 4 ∧
    Fields.checkLen (.cons "t" (.table (some 4) 5 (.cons "in" (.array [7, 8, 0, 0]) .nil)) .nil) 4 =
      true ∧
    Table.deepWFT ⟨some 4, 4, .cons "t" (.table (some 4) 5 (.cons "in" (.array [7, 8, 0, 0]) .nil)) .nil⟩ =
      true :=
  ⟨by decide, by decide,
   by
    have h := claim_C3_resize_propagation.2.1
      ⟨some 2, 4, .cons "t" (.table (some 2) 5 (.cons "in" (.array [7, 8]) .nil)) .nil⟩ 4 true
      ⟨some 4, 4, .cons "t" (.table (some 4) 5 (.cons "in" (.array [7, 8, 0, 0]) .nil)) .nil⟩
      ["t"] (by decide) (by decide)
    exact h.1,
   by decide,
   by
    have h := claim_C3_resize_propagation.2.1
      ⟨some 2, 4, .cons "t" (.table (some 2) 5 (.cons "in" (.array [7, 8]) .nil)) .nil⟩ 4 true
      ⟨some 4, 4, .cons "t" (.table (some 4) 5 (.cons "in" (.array [7, 8, 0, 0]) .nil)) .nil⟩
      ["t"] (by decide) (by decide)
    exact h.2.2.1⟩

theorem add_field_wf_total {t : Table} (name : String) {obj : LGDO} (uos dw : Bool)
    (hwt : t.deepWFT = true) (hwo : obj.deepWF = true) :
    ∃ t', t.add_field name obj uos dw = .ok t' ∧
      (∃ o', t'.fields.lookup name = some o') ∧
      (uos = false → t'.size = t.size) ∧
      (∀ ln, obj.lenE = .ok ln → uos = true → t'.size = some ln) := by
  obtain ⟨ln, hln⟩ := deepWF_lenE hwo
  obtain ⟨n, hsz, hcl⟩ := Table.deepWFT_size hwt
  by_cases hs : t.size = some ln
  · refine ⟨{ t with fields := t.fields.insert name obj },
      Table.add_field_fast hs hln, ?_, fun _ => rfl, ?_⟩
    · exact ⟨obj, Fields.lookup_insert_self t.fields name obj⟩
    · intro ln' hln' _
      rw [hln] at hln'
      injection hln' with he
      rw [← he, ← hs]
  · have hall : (t.fields.insert name obj).allDeepWF = true :=
      Fields.allDeepWF_insert (Table.deepWFT_allDeepWF hwt) hwo
    have hcase : ∀ m, ∃ fs' sz' ws,
        (t.fields.insert name obj).resizeLoop (some m) false = .ok (fs', sz', ws) ∧
        sz' = some m ∧ fs'.keys = (t.fields.insert name obj).keys := by
      intro m
      obtain ⟨fs', sz', ws, hok, -⟩ :=
        resizeLoop_wf_total (t.fields.insert name obj) (some m) false hall
      obtain ⟨hkeys, hsome, -⟩ := resizeLoop_spec _ _ _ _ _ _ hok
      exact ⟨fs', sz', ws, hok, (hsome m rfl).1, hkeys⟩
    cases uos with
    | false =>
      obtain ⟨fs', sz', ws, hok, hsz', hkeys⟩ := hcase n
      refine ⟨{ size := sz', loc := t.loc, fields := fs' },
        Table.add_field_eq_ok.mpr ⟨LGDO.hasLen_of_lenE hln, ln, hln,
          Or.inr ⟨hs, fs', sz', ws, by simpa [hsz] using hok, rfl⟩⟩, ?_, ?_, ?_⟩
      · refine Fields.mem_keys_lookup ?_
        rw [hkeys]; exact Fields.mem_keys_insert t.fields name obj
      · intro _
        show sz' = t.size
        rw [hsz', hsz]
      · intro ln' hln' hcontr
        simp at hcontr
    | true =>
      obtain ⟨fs', sz', ws, hok, hsz', hkeys⟩ := hcase ln
      refine ⟨{ size := sz', loc := t.loc, fields := fs' },
        Table.add_field_eq_ok.mpr ⟨LGDO.hasLen_of_lenE hln, ln, hln,
          Or.inr ⟨hs, fs', sz', ws, by simpa using hok, rfl⟩⟩, ?_, ?_, ?_⟩
      · refine Fields.mem_keys_lookup ?_
        rw [hkeys]; exact Fields.mem_keys_insert t.fields name obj
      · intro hcontr
        simp at hcontr
      · intro ln' hln' _
        rw [hln] at hln'
        injection hln' with he
        show sz' = some ln'
        rw [hsz', he]

/-- C9 counterexample: an object that does have `__len__` (a nested
table whose `size` is `None`) still makes `add_field` raise `TypeError`,
refuting the claim's "when obj has `__len__`, no TypeError is raised". -/
theorem claim_C9_counterexample :
    (LGDO.table none 0 .nil).hasLen = true ∧
    Table.add_field ⟨some 3, 0, .cons "a" (.array [1, 2, 3]) .nil⟩ "x" (.table none 0 .nil)
      false true =
      .error (.typeError "NoneType cannot be interpreted as an integer") := by
  decide

/-- C9 (amended): `add_field` on an object without `__len__` raises
`TypeError` before any mutation; when the object's length is a defined
integer and the table is well-formed, `add_field` succeeds, the column
is present afterwards, and the table's size is kept when
`use_obj_size=False` and set to `len(obj)` when `use_obj_size=True`. -/
theorem claim_C9_add_field :
    (∀ (t : Table) name obj uos dw, obj.hasLen = false →
      t.add_field name obj uos dw = .error (.typeError "cannot add field of this type")) ∧
    (∀ (t : Table) name obj uos dw, t.deepWFT = true → obj.deepWF = true →
      ∃ t', t.add_field name obj uos dw = .ok t' ∧
        (∃ o', t'.fields.lookup name = some o') ∧
        (uos = false → t'.size = t.size) ∧
        (∀ ln, obj.lenE = .ok ln → uos = true → t'.size = some ln)) :=
  ⟨fun t name obj uos dw h => by simp [Table.add_field, h],
   fun t name obj uos dw hwt hwo => add_field_wf_total name uos dw hwt hwo⟩

/-- Witness for C9: a `Scalar` column is rejected with `TypeError`, and a
well-formed `add_field` with `use_obj_size=True` adopts the new length. -/
theorem claim_C9_witness :
    (LGDO.scalar 5).hasLen = false ∧
    Table.add_field ⟨some 3, 0, .nil⟩ "x" (.scalar 5) false true =
      .error (.typeError "cannot add field of this type") ∧
    Table.deepWFT ⟨some 3, 0, .cons "a" (.array [1, 2, 3]) .nil⟩ = true ∧
    (LGDO.array [1, 2]).deepWF = true ∧
    (∃ t', Table.add_field ⟨some 3, 0, .cons "a" (.array [1, 2, 3]) .nil⟩ "x" (.array [1, 2])
        true true = .ok t' ∧
      (∃ o', t'.fields.lookup "x" = some o') ∧
      (true = false → t'.size = Table.size ⟨some 3, 0, .cons "a" (.array [1, 2, 3]) .nil⟩) ∧
      (∀ ln, (LGDO.array [1, 2]).lenE = .ok ln → true = true → t'.size = some ln)) :=
  ⟨rfl,
   claim_C9_add_field.1 ⟨some 3, 0, .nil⟩ "x" (.scalar 5) false true rfl,
   by decide, rfl,
   claim_C9_add_field.2 ⟨some 3, 0, .cons "a" (.array [1, 2, 3]) .nil⟩ "x" (.array [1, 2])
     true true (by decide) rfl⟩

theorem join_fold_lookup {other : Table} {dw : Bool} {n : Nat} :
    ∀ (cs : List String) (acc : Table), acc.size = some n →
    (∀ c ∈ cs, ∃ o, other.fields.lookup c = some o ∧ o.lenE = .ok n) →
    ∃ t', (cs.foldlM (fun acc name =>
        match other.fields.lookup name with
        | none => .error (.keyError name)
        | some obj => acc.add_column name obj false dw) acc : Except PyError Table) = .ok t' ∧
      t'.size = acc.size ∧ t'.loc = acc.loc ∧
      (∀ x, t'.fields.lookup x =
        (if x ∈ cs then other.fields.lookup x else acc.fields.lookup x)) := by
  intro cs
  induction cs with
  | nil =>
    intro acc hsz hcols
    exact ⟨acc, rfl, rfl, rfl, fun x => by simp⟩
  | cons c cs ih =>
    intro acc hsz hcols
    obtain ⟨obj, hobj, hlen⟩ := hcols c (List.mem_cons_self c cs)
    have hadd : acc.add_column c obj false dw =
        .ok { acc with fields := acc.fields.insert c obj } :=
      Table.add_field_fast hsz hlen
    obtain ⟨t', hfold, hs', hl', hlook⟩ :=
      ih { acc with fields := acc.fields.insert c obj } hsz
        (fun c' hc' => hcols c' (List.mem_cons_of_mem c hc'))
    refine ⟨t', ?_, hs', hl', ?_⟩
    · simp only [List.foldlM_cons, hobj, hadd, bind, Except.bind]
      exact hfold
    · intro x
      rw [hlook x]
      by_cases hxcs : x ∈ cs
      · simp [hxcs, List.mem_cons]
      · by_cases hxc : x = c
        · subst hxc
          simp [hxcs, List.mem_cons, Fields.lookup_insert_self, hobj]
        · simp [hxcs, hxc, List.mem_cons, Fields.lookup_insert_ne acc.fields obj hxc]

/-- C7: join semantics — for tables of equal (well-formed) size, `join`
succeeds and afterwards `self[name]` holds exactly `other_table[name]`
(the object is stored without copying or resizing) for every requested
column name (all of `other_table`'s columns when `cols=None`, only the
listed ones otherwise), while all other columns of `self`, its `size`
and its `loc` are untouched; `other_table` itself is never written to
(the embedding threads it read-only). -/
theorem claim_C7_join :
    ∀ (t other : Table) (cols : Option (List String)) (dw : Bool) (n : Nat),
      t.size = some n → other.size = some n → other.invariant →
      (∀ c ∈ cols.getD other.fields.keys, c ∈ other.fields.keys) →
      ∃ t' ws, t.join other cols dw = .ok (t', ws) ∧
        t'.size = t.size ∧ t'.loc = t.loc ∧
        (∀ x ∈ cols.getD other.fields.keys, t'.fields.lookup x = other.fields.lookup x) ∧
        (∀ x, x ∉ cols.getD other.fields.keys → t'.fields.lookup x = t.fields.lookup x) := by
  intro t other cols dw n hts hos hoinv hsub
  have hcols : ∀ c ∈ cols.getD other.fields.keys,
      ∃ o, other.fields.lookup c = some o ∧ o.lenE = .ok n := by
    intro c hc
    obtain ⟨o, ho⟩ := Fields.mem_keys_lookup (hsub c hc)
    obtain ⟨m, hm, hlen⟩ := hoinv (c, o) (Fields.lookup_mem ho)
    rw [hos] at hm
    injection hm with hm
    exact ⟨o, ho, hm ▸ hlen⟩
  obtain ⟨t', hfold, hs', hl', hlook⟩ :=
    join_fold_lookup (cols.getD other.fields.keys) t hts hcols
  refine ⟨t', if other.loc ≠ t.loc ∧ dw then ["loc mismatch"] else [], ?_, hs', hl', ?_, ?_⟩
  · simp only [Table.join, bind]
    rw [except_bind_ok]
    exact ⟨t', hfold, rfl⟩
  · intro x hx; rw [hlook x]; simp [hx]
  · intro x hx; rw [hlook x]; simp [hx]

/-- Witness for C7 at two concrete one-column tables of equal size. -/
theorem claim_C7_witness :
    Table.size ⟨some 3, 1, .cons "a" (.array [1, 2, 3]) .nil⟩ = some 3 ∧
    Table.size ⟨some 3, 0, .cons "b" (.array [4, 5, 6]) .nil⟩ = some 3 ∧
    Table.invariant ⟨some 3, 0, .cons "b" (.array [4, 5, 6]) .nil⟩ ∧
    (∃ t' ws,
      Table.join ⟨some 3, 1, .cons "a" (.array [1, 2, 3]) .nil⟩
        ⟨some 3, 0, .cons "b" (.array [4, 5, 6]) .nil⟩ none true = .ok (t', ws) ∧
      t'.size = Table.size ⟨some 3, 1, .cons "a" (.array [1, 2, 3]) .nil⟩ ∧
      t'.loc = Table.loc ⟨some 3, 1, .cons "a" (.array [1, 2, 3]) .nil⟩ ∧
      (∀ x ∈ Option.getD none (Fields.keys (.cons "b" (.array [4, 5, 6]) .nil)),
        t'.fields.lookup x = Fields.lookup (.cons "b" (.array [4, 5, 6]) .nil) x) ∧
      (∀ x, x ∉ Option.getD none (Fields.keys (.cons "b" (.array [4, 5, 6]) .nil)) →
        t'.fields.lookup x = Fields.lookup (.cons "a" (.array [1, 2, 3]) .nil) x)) :=
  ⟨rfl, rfl, by decide,
   claim_C7_join ⟨some 3, 1, .cons "a" (.array [1, 2, 3]) .nil⟩
     ⟨some 3, 0, .cons "b" (.array [4, 5, 6]) .nil⟩ none true 3 rfl rfl (by decide) (by decide)⟩

theorem mem_dfAssign {df : DataFrame} {k : String} {v : List Int} :
    ∀ p ∈ dfAssign df k v, p = (k, v) ∨ p ∈ df := by
  induction df with
  | nil => simp [dfAssign]
  | cons q rest ih =>
    obtain ⟨k', v'⟩ := q
    intro p hp
    by_cases hk : k' = k
    · subst hk
      simp only [dfAssign, reduceIte, List.mem_cons] at hp ⊢
      tauto
    · simp only [dfAssign, hk, ite_false, reduceIte, List.mem_cons] at hp ⊢
      rcases hp with rfl | hp
      · tauto
      · rcases ih p hp with h | h <;> tauto

theorem mapfst_dfAssign_fresh {df : DataFrame} {k : String} (v : List Int)
    (h : k ∉ df.map Prod.fst) : (dfAssign df k v).map Prod.fst = df.map Prod.fst ++ [k] := by
  induction df with
  | nil => simp [dfAssign]
  | cons q rest ih =>
    obtain ⟨k', v'⟩ := q
    simp only [List.map_cons, List.mem_cons] at h
    push_neg at h
    simp [dfAssign, Ne.symm h.1, ih h.2]

theorem LGDO.hasNda_true_iff {o : LGDO} : o.hasNda = true ↔ ∃ l, o = .array l := by
  cases o <;> simp [LGDO.hasNda]

theorem gdf_fold_ok {t : Table} : ∀ (cs : List String) (df0 df : DataFrame),
    (cs.foldlM (fun df col =>
      match t.fields.lookup col with
      | none => .error (.keyError col)
      | some obj =>
        match obj with
        | .array l => .ok (dfAssign df col l)
        | _ => .error (.valueError col)) df0 : Except PyError DataFrame) = .ok df →
    (∀ p ∈ df, p ∈ df0 ∨ t.fields.lookup p.1 = some (.array p.2)) ∧
    (cs.Nodup → (∀ c ∈ cs, c ∉ df0.map Prod.fst) →
      df.map Prod.fst = df0.map Prod.fst ++ cs) := by
  intro cs
  induction cs with
  | nil =>
    intro df0 df h
    simp only [List.foldlM_nil, pure, Except.pure, Except.ok.injEq] at h
    subst h
    exact ⟨fun p hp => Or.inl hp, fun _ _ => by simp⟩
  | cons c cs ih =>
    intro df0 df h
    simp only [List.foldlM_cons, bind] at h
    rw [except_bind_ok] at h
    obtain ⟨df1, h1, h2⟩ := h
    match hl : t.fields.lookup c with
    | none => rw [hl] at h1; cases h1
    | some (.scalar x) => rw [hl] at h1; cases h1
    | some (.vov x) => rw [hl] at h1; cases h1
    | some (.table a b fs) => rw [hl] at h1; cases h1
    | some (.array l) =>
      rw [hl] at h1
      simp only [Except.ok.injEq] at h1
      subst h1
      obtain ⟨hmem, hkeys⟩ := ih (dfAssign df0 c l) df h2
      constructor
      · intro p hp
        rcases hmem p hp with hp1 | hp1
        · rcases mem_dfAssign p hp1 with rfl | hp2
          · exact Or.inr (by simpa using hl)
          · exact Or.inl hp2
        · exact Or.inr hp1
      · intro hnd hfresh
        have hcn : c ∉ df0.map Prod.fst := hfresh c (List.mem_cons_self c cs)
        have : df.map Prod.fst = (dfAssign df0 c l).map Prod.fst ++ cs := by
          refine hkeys (List.Nodup.of_cons hnd) ?_
          intro c' hc'
          rw [mapfst_dfAssign_fresh l hcn]
          simp only [List.mem_append, List.mem_singleton]
          push_neg
          exact ⟨hfresh c' (List.mem_cons_of_mem c hc'),
            fun hcc => (List.nodup_cons.mp hnd).1 (hcc ▸ hc')⟩
        rw [this, mapfst_dfAssign_fresh l hcn]
        simp

theorem gdf_fold_total {t : Table} : ∀ (cs : List String) (df0 : DataFrame),
    (∀ c ∈ cs, ∃ l, t.fields.lookup c = some (.array l)) →
    ∃ df, (cs.foldlM (fun df col =>
      match t.fields.lookup col with
      | none => .error (.keyError col)
      | some obj =>
        match obj with
        | .array l => .ok (dfAssign df col l)
        | _ => .error (.valueError col)) df0 : Except PyError DataFrame) = .ok df := by
  intro cs
  induction cs with
  | nil => intro df0 _; exact ⟨df0, rfl⟩
  | cons c cs ih =>
    intro df0 hgood
    obtain ⟨l, hl⟩ := hgood c (List.mem_cons_self c cs)
    obtain ⟨df, hdf⟩ := ih (dfAssign df0 c l) (fun c' hc' => hgood c' (List.mem_cons_of_mem c hc'))
    refine ⟨df, ?_⟩
    simp only [List.foldlM_cons, hl, bind, Except.bind]
    exact hdf

theorem gdf_fold_valueError {t : Table} : ∀ (cs : List String) (df0 : DataFrame),
    (∀ c ∈ cs, (t.fields.lookup c).isSome) →
    (∃ c ∈ cs, ∃ o, t.fields.lookup c = some o ∧ o.hasNda = false) →
    ∃ msg, (cs.foldlM (fun df col =>
      match t.fields.lookup col with
      | none => .error (.keyError col)
      | some obj =>
        match obj with
        | .array l => .ok (dfAssign df col l)
        | _ => .error (.valueError col)) df0 : Except PyError DataFrame) =
      .error (.valueError msg) := by
  intro cs
  induction cs with
  | nil => intro df0 _ hbad; simp at hbad
  | cons c cs ih =>
    intro df0 hmem hbad
    match hl : t.fields.lookup c with
    | none => exact absurd (hmem c (List.mem_cons_self c cs)) (by simp [hl])
    | some obj =>
      by_cases hnda : obj.hasNda = true
      · obtain ⟨l, rfl⟩ := LGDO.hasNda_true_iff.mp hnda
        have hbad' : ∃ c' ∈ cs, ∃ o, t.fields.lookup c' = some o ∧ o.hasNda = false := by
          obtain ⟨c', hc', o, ho, hof⟩ := hbad
          rcases List.mem_cons.mp hc' with rfl | hc'
          · rw [hl] at ho; injection ho with ho; rw [← ho] at hof
            rw [hnda] at hof; cases hof
          · exact ⟨c', hc', o, ho, hof⟩
        obtain ⟨msg, hmsg⟩ := ih (dfAssign df0 c l)
          (fun c' hc' => hmem c' (List.mem_cons_of_mem c hc')) hbad'
        refine ⟨msg, ?_⟩
        simp only [List.foldlM_cons, hl, bind, Except.bind]
        exact hmsg
      · rw [Bool.not_eq_true] at hnda
        refine ⟨c, ?_⟩
        simp only [List.foldlM_cons, hl, bind, Except.bind]
        match obj, hnda with
        | .scalar x, _ => rfl
        | .vov x, _ => rfl
        | .table a b fs, _ => rfl

/-- C5: `get_dataframe` error condition — restricted to requested column
names that exist in the table, it raises `ValueError` exactly when some
requested column lacks an `nda` attribute; otherwise it returns a
dataframe whose columns are exactly the requested ones (each holding the
column's `nda` buffer).  The table itself is never written to: the
embedding threads it read-only, matching the purely-reading source. -/
theorem claim_C5_get_dataframe :
    ∀ (t : Table) (cols : Option (List String)) (copy : Bool),
      (∀ c ∈ cols.getD t.fields.keys, (t.fields.lookup c).isSome) →
      ((∃ msg, t.get_dataframe cols copy = .error (.valueError msg)) ↔
        (∃ c ∈ cols.getD t.fields.keys, ∃ o, t.fields.lookup c = some o ∧ o.hasNda = false)) ∧
      (∀ df, t.get_dataframe cols copy = .ok df →
        (∀ p ∈ df, t.fields.lookup p.1 = some (.array p.2)) ∧
        ((cols.getD t.fields.keys).Nodup → df.map Prod.fst = cols.getD t.fields.keys)) := by
  intro t cols copy hmem
  constructor
  · constructor
    · intro herr
      by_contra hbad
      push_neg at hbad
      have hgood : ∀ c ∈ cols.getD t.fields.keys, ∃ l, t.fields.lookup c = some (.array l) := by
        intro c hc
        obtain ⟨o, ho⟩ := Option.isSome_iff_exists.mp (hmem c hc)
        by_cases hnda : o.hasNda = true
        · obtain ⟨l, rfl⟩ := LGDO.hasNda_true_iff.mp hnda
          exact ⟨l, ho⟩
        · rw [Bool.not_eq_true] at hnda
          exact absurd hnda (hbad c hc o ho)
      obtain ⟨df, hdf⟩ := gdf_fold_total (cols.getD t.fields.keys) [] hgood
      obtain ⟨msg, hmsg⟩ := herr
      rw [Table.get_dataframe] at hmsg
      rw [hdf] at hmsg
      cases hmsg
    · intro hbad
      obtain ⟨msg, hmsg⟩ := gdf_fold_valueError (cols.getD t.fields.keys) [] hmem hbad
      exact ⟨msg, by rw [Table.get_dataframe]; exact hmsg⟩
  · intro df hdf
    rw [Table.get_dataframe] at hdf
    obtain ⟨hcontent, hkeys⟩ := gdf_fold_ok (cols.getD t.fields.keys) [] df hdf
    refine ⟨?_, ?_⟩
    · intro p hp
      rcases hcontent p hp with hp0 | hp0
      · simp at hp0
      · exact hp0
    · intro hnd
      simpa using hkeys hnd (by simp)

/-- Witness for C5: a table with an array column and a ragged column
raises `ValueError`, and with only the array column requested returns a
dataframe holding exactly it. -/
theorem claim_C5_witness :
    (∀ c ∈ Option.getD none
        (Fields.keys (.cons "a" (.array [1, 2]) (.cons "v" (.vov [[1], [2]]) .nil))),
      (Fields.lookup (.cons "a" (.array [1, 2]) (.cons "v" (.vov [[1], [2]]) .nil)) c).isSome) ∧
    ((∃ msg, Table.get_dataframe ⟨some 2, 0, .cons "a" (.array [1, 2])
        (.cons "v" (.vov [[1], [2]]) .nil)⟩ none false = .error (.valueError msg)) ↔
      (∃ c ∈ Option.getD none
          (Fields.keys (.cons "a" (.array [1, 2]) (.cons "v" (.vov [[1], [2]]) .nil))),
        ∃ o, Fields.lookup (.cons "a" (.array [1, 2]) (.cons "v" (.vov [[1], [2]]) .nil)) c =
          some o ∧ o.hasNda = false)) :=
  ⟨by decide,
   (claim_C5_get_dataframe ⟨some 2, 0, .cons "a" (.array [1, 2]) (.cons "v" (.vov [[1], [2]]) .nil)⟩
     none false (by decide)).1⟩

theorem eval_fold {n : Nat} {engine : DataFrame → String → List Int}
    (heng : ∀ df e, (engine df e).length = n) :
    ∀ (cfg : List (String × String)) (df : DataFrame) (out : Table),
      (∀ p ∈ df, p.2.length = n) →
      out.size = some n →
      (∀ p ∈ out.fields.toList, ∃ l, p.2 = .array l ∧ l.length = n) →
      (cfg.map Prod.fst).Nodup →
      (∀ k ∈ cfg.map Prod.fst, k ∉ out.fields.keys) →
      ∃ df' out', (cfg.foldlM (fun (st : DataFrame × Table) kv => do
          let df' := dfAssign st.1 kv.1 (engine st.1 kv.2)
          let out' ← st.2.add_column kv.1 (.array (dfGet df' kv.1)) false true
          return (df', out')) (df, out) : Except PyError (DataFrame × Table)) = .ok (df', out') ∧
        out'.size = some n ∧ out'.loc = out.loc ∧
        out'.fields.keys = out.fields.keys ++ cfg.map Prod.fst ∧
        (∀ p ∈ out'.fields.toList, ∃ l, p.2 = .array l ∧ l.length = n) := by
  intro cfg
  induction cfg with
  | nil =>
    intro df out hdf hsz harr hnd hfresh
    exact ⟨df, out, rfl, hsz, rfl, by simp, harr⟩
  | cons kv cfg ih =>
    intro df out hdf hsz harr hnd hfresh
    obtain ⟨k, e⟩ := kv
    have hkfresh : k ∉ out.fields.keys := hfresh k (by simp)
    have hcol : dfGet (dfAssign df k (engine df e)) k = engine df e :=
      dfGet_dfAssign_self df k (engine df e)
    have hlen : (LGDO.array (dfGet (dfAssign df k (engine df e)) k)).lenE = .ok n := by
      simp [LGDO.lenE, hcol, heng]
    have hadd : out.add_column k (.array (dfGet (dfAssign df k (engine df e)) k)) false true =
        .ok { out with fields :=
          out.fields.insert k (.array (dfGet (dfAssign df k (engine df e)) k)) } :=
      Table.add_field_fast hsz hlen
    have hdf1 : ∀ p ∈ dfAssign df k (engine df e), p.2.length = n := by
      intro p hp
      rcases mem_dfAssign p hp with rfl | hp1
      · exact heng df e
      · exact hdf p hp1
    have harr1 : ∀ p ∈ (out.fields.insert k
        (.array (dfGet (dfAssign df k (engine df e)) k))).toList,
        ∃ l, p.2 = .array l ∧ l.length = n := by
      rw [Fields.toList_insert_fresh _ hkfresh]
      intro p hp
      rcases List.mem_append.mp hp with hp1 | hp1
      · exact harr p hp1
      · simp only [List.mem_singleton] at hp1
        subst hp1
        exact ⟨engine df e, by rw [hcol], heng df e⟩
    have hfresh1 : ∀ k' ∈ cfg.map Prod.fst,
        k' ∉ (out.fields.insert k (.array (dfGet (dfAssign df k (engine df e)) k))).keys := by
      intro k' hk'
      rw [Fields.keys_insert_fresh _ hkfresh]
      simp only [List.mem_append, List.mem_singleton]
      push_neg
      refine ⟨hfresh k' (by simp [hk']), ?_⟩
      intro hkk
      subst hkk
      exact (List.nodup_cons.mp (by simpa using hnd)).1 hk'
    obtain ⟨df', out', hfold, hsz', hloc', hkeys', harr'⟩ :=
      ih (dfAssign df k (engine df e))
        { out with fields := out.fields.insert k (.array (dfGet (dfAssign df k (engine df e)) k)) }
        hdf1 hsz harr1 (by simpa using List.Nodup.of_cons (by simpa using hnd)) hfresh1
    refine ⟨df', out', ?_, hsz', hloc', ?_, harr'⟩
    · simp only [List.foldlM_cons, bind, Except.bind, hadd]
      exact hfold
    · rw [hkeys']
      show (out.fields.insert k _).keys ++ _ = _
      rw [Fields.keys_insert_fresh _ hkfresh]
      simp

/-- C6: `eval` output shape — on a table whose columns all carry `nda`
buffers of the table's size, with a well-formed `expr_config` (the
abstracted expression engine returns one value per row), `eval` returns
a fresh output table of the same size and `loc = 0` whose columns are
exactly the `expr_config` keys in order, each holding an `Array` of that
length; the input table is threaded read-only by the embedding, so its
columns, `size` and `loc` are unchanged. -/
theorem claim_C6_eval_shape :
    ∀ (t : Table) (n : Nat) (cfg : List (String × String))
      (engine : DataFrame → String → List Int),
      t.size = some n →
      (∀ p ∈ t.fields.toList, ∃ l, p.2 = .array l ∧ l.length = n) →
      (∀ df e, (engine df e).length = n) →
      (cfg.map Prod.fst).Nodup →
      ∃ t', t.eval cfg engine = .ok t' ∧
        t'.size = t.size ∧ t'.loc = 0 ∧
        t'.fields.keys = cfg.map Prod.fst ∧
        (∀ p ∈ t'.fields.toList, ∃ l, p.2 = .array l ∧ l.length = n) := by
  intro t n cfg engine hsz harr heng hnd
  have hgood : ∀ c ∈ t.fields.keys, ∃ l, t.fields.lookup c = some (.array l) := by
    intro c hc
    obtain ⟨o, ho⟩ := Fields.mem_keys_lookup hc
    obtain ⟨l, hl, -⟩ := harr (c, o) (Fields.lookup_mem ho)
    exact ⟨l, ho.trans (congrArg some hl)⟩
  obtain ⟨df0, hdf0⟩ := gdf_fold_total t.fields.keys [] (by simpa using hgood)
  have hdfok : t.get_dataframe none false = .ok df0 := by
    rw [Table.get_dataframe]
    exact hdf0
  have hdflen : ∀ p ∈ df0, p.2.length = n := by
    intro p hp
    obtain ⟨hcontent, -⟩ := gdf_fold_ok t.fields.keys [] df0 hdf0
    rcases hcontent p hp with hp0 | hp0
    · simp at hp0
    · obtain ⟨l, hl, hlen⟩ := harr (p.1, .array p.2) (Fields.lookup_mem hp0)
      injection hl with hl
      simpa [← hl] using hlen
  have hinit : Table.init t.size none =
      .ok ({ size := some n, loc := 0, fields := .nil }, []) := by
    rw [hsz]; rfl
  obtain ⟨df', out', hfold, hsz', hloc', hkeys', harr'⟩ :=
    eval_fold heng cfg df0 { size := some n, loc := 0, fields := .nil }
      hdflen rfl (by intro p hp; simp [Fields.toList] at hp) hnd
      (by intro k hk; simp [Fields.keys])
  refine ⟨out', ?_, by rw [hsz', hsz], hloc', by simpa using hkeys', harr'⟩
  rw [Table.eval]
  simp only [bind, Except.bind, pure, Except.pure] at hfold ⊢
  simp only [hdfok, hinit, hfold]

/-- Witness for C6 at a one-column table and a constant expression
engine producing two output columns. -/
theorem claim_C6_witness :
    Table.size ⟨some 2, 0, .cons "a" (.array [1, 2]) .nil⟩ = some 2 ∧
    (∀ df e, ((fun (_ : DataFrame) (_ : String) => ([5, 7] : List Int)) df e).length = 2) ∧
    (([("O1", "x1"), ("O2", "x2")].map Prod.fst).Nodup) ∧
    (∃ t', Table.eval ⟨some 2, 0, .cons "a" (.array [1, 2]) .nil⟩ [("O1", "x1"), ("O2", "x2")]
        (fun _ _ => [5, 7]) = .ok t' ∧
      t'.size = Table.size ⟨some 2, 0, .cons "a" (.array [1, 2]) .nil⟩ ∧ t'.loc = 0 ∧
      t'.fields.keys = [("O1", "x1"), ("O2", "x2")].map Prod.fst ∧
      (∀ p ∈ t'.fields.toList, ∃ l, p.2 = .array l ∧ l.length = 2)) :=
  ⟨rfl, fun _ _ => rfl, by decide,
   claim_C6_eval_shape ⟨some 2, 0, .cons "a" (.array [1, 2]) .nil⟩ 2
     [("O1", "x1"), ("O2", "x2")] (fun _ _ => [5, 7]) rfl
     (by
       intro p hp
       simp only [Fields.toList, List.mem_singleton] at hp
       subst hp
       exact ⟨[1, 2], rfl, rfl⟩)
     (fun _ _ => rfl) (by decide)⟩
